import Mathlib

/-!
# The `#SYSTEM` default-topic scan of `napi_init.cpp`

A shallow embedding of `read_uint16` and of `GetHomeFile`
(`src/chmlib/src/main/cpp/napi_init.cpp`), and the properties of the record scan
that extracts the default topic (record code 2) from the `#SYSTEM` stream.

Modelling conventions.

* A byte (`unsigned char`) is a `Fin 256`; a buffer is a `List Byte`.
* Every read of the buffer is bounds checked: an index outside the list is the
  fault `Fault.outOfBounds` (in C++: a read outside the `malloc`ed block).
* `size_t` and `ui.length` are natural numbers.  The cursor never exceeds
  `ui.length + 65535`, and `ui.length` is the size of a block `malloc` returned,
  so the 64-bit arithmetic of the source does not wrap.
* The `while` loop gets a fuel argument; a loop that still wants to run with no
  fuel left is the fault `Fault.outOfFuel`.
* The C++ string `topic` (a `std::string`) is the list of its bytes.
* A runtime string (`napi_value` made by `napi_create_string_utf8`) is the list
  of bytes of the C string handed to the runtime; the UTF-8 decoding the runtime
  applies to these bytes is not modelled.
-/

namespace NapiInit

/-- An `unsigned char`. -/
abbrev Byte := Fin 256

/-- The ways the bounds-checked, fuelled embedding can fail. -/
inductive Fault where
  | outOfBounds
  | outOfFuel
deriving DecidableEq, Repr

/-- The byte `p[i]`, bounds checked. -/
def readByte (buf : List Byte) (i : Nat) : Except Fault Byte :=
  match buf[i]? with
  | some b => .ok b
  | none => .error .outOfBounds

/-- `read_uint16(buf + p)`: `(uint16_t)(p[0] | (p[1] << 8))`. -/
def read_uint16 (buf : List Byte) (p : Nat) : Except Fault Nat := do
  let p0 ← readByte buf p
  let p1 ← readByte buf (p + 1)
  pure ((p0.val ||| (p1.val <<< 8)) % 2 ^ 16)

/-- The bytes `buf[p], ..., buf[p + count - 1]`, read one by one as the constructor
`std::string(const char*, size_t count)` copies them. -/
def readBytes (buf : List Byte) (p : Nat) : Nat → Except Fault (List Byte)
  | 0 => pure []
  | count + 1 => do
    let b ← readByte buf p
    let tl ← readBytes buf (p + 1) count
    pure (b :: tl)

/-- The character `/`. -/
def slash : Byte := 47

/-- Lines 218-220: `if (!topic.empty() && topic[0] != '/') topic = "/" + topic;`. -/
def ensureSlash (topic : List Byte) : List Byte :=
  match topic with
  | [] => []
  | c :: _ => if c ≠ slash then slash :: topic else topic

/-- The bytes `napi_create_string_utf8(env, s.c_str(), NAPI_AUTO_LENGTH, &result)`
makes the runtime string from: with `NAPI_AUTO_LENGTH` the bytes of the C string
are taken up to its first NUL byte. The runtime then decodes these bytes as UTF-8;
that decoding is not modelled, so this is the input of the decoding and not the
text the caller sees when the bytes are not valid UTF-8. -/
def napi_create_string_utf8_auto (s : List Byte) : List Byte :=
  s.takeWhile (fun b => b ≠ 0)

/-- The outcome of one execution of the loop body. -/
inductive Step where
  /-- the body ended normally, with the new value of `offset` -/
  | next (offset : Nat)
  /-- the body executed `break`; `result` is the string stored to `result`, if one
  was, and `topic` the C++ string `topic` it was made from -/
  | exit (result : Option (List Byte)) (topic : Option (List Byte))
deriving DecidableEq, Repr

/-- Lines 207-225, the body of `while (offset + 4 <= ui.length)`. -/
def loopBody (buf : List Byte) (length : Nat) (offset : Nat) : Except Fault Step := do
  let code ← read_uint16 buf offset
  let len ← read_uint16 buf (offset + 2)
  let offset := offset + 4
  if offset + len > length then
    pure (.exit none none)
  else if code = 2 then
    let topic ← readBytes buf offset (if len > 0 then len - 1 else 0)
    let topic := ensureSlash topic
    pure (.exit (some (napi_create_string_utf8_auto topic)) (some topic))
  else
    pure (.next (offset + len))

/-- What the scan leaves behind: the string stored to `result` (if the scan stored
one), the number of times the loop body ran, and the C++ string `topic` of lines
216-220 (if the scan reached them). -/
structure Scan where
  result : Option (List Byte)
  iterations : Nat
  topic : Option (List Byte)
deriving DecidableEq, Repr

/-- Lines 206-226: `while (offset + 4 <= ui.length) { ... }`, started at `offset`
after `iterations` earlier executions of the body. -/
def whileLoop (buf : List Byte) (length : Nat) : Nat → Nat → Nat → Except Fault Scan
  | fuel, offset, iterations =>
    if offset + 4 ≤ length then
      match fuel with
      | 0 => .error .outOfFuel
      | fuel + 1 =>
        match loopBody buf length offset with
        | .error e => .error e
        | .ok (.exit result topic) => .ok ⟨result, iterations + 1, topic⟩
        | .ok (.next offset) => whileLoop buf length fuel offset (iterations + 1)
    else
      .ok ⟨none, iterations, none⟩

/-- Lines 203-227: the parse of the `#SYSTEM` bytes in `buf`, with `length` the
value of `ui.length`. -/
def parseSystem (buf : List Byte) (length : Nat) (fuel : Nat) : Except Fault Scan :=
  if length ≥ 4 then
    whileLoop buf length fuel 4 0
  else
    .ok ⟨none, 0, none⟩

/-- The default-topic parse of a buffer of `buf.length` bytes (`ui.length` is the
size of the buffer, as in `GetHomeFile`, where the buffer is `malloc(ui.length)`):
`some s` when the scan stored the string `s` to `result`, `none` when `result`
kept its default. The fuel `buf.length` is more than the loop can use. -/
def parseDefaultTopic (buf : List Byte) : Except Fault (Option (List Byte)) :=
  (parseSystem buf buf.length buf.length).map Scan.result

/-- What the environment does during one call of `GetHomeFile`: the functions of
`chm_lib.h` and `malloc` are not part of `napi_init.cpp`, so what they return in
this call is a parameter of the embedding. -/
structure Call where
  /-- the number of arguments the caller passed -/
  argc : Nat
  /-- whether `chm_open` returned a handle -/
  opened : Bool
  /-- `chm_resolve_object(h, "/#SYSTEM", &ui)`: `ui.length` on success -/
  resolved : Option Nat
  /-- `malloc(ui.length)`: `none` for a null pointer, otherwise the indeterminate
  bytes the fresh block holds -/
  block : Option (List Byte)
  /-- the bytes `chm_retrieve_object` stores at the start of `buf`; the value it
  returns is their number -/
  retrieved : List Byte
deriving DecidableEq, Repr

/-- The environment respects the contracts of `malloc` and `chm_retrieve_object`:
the block has `ui.length` bytes and at most `ui.length` bytes are retrieved. -/
def Call.WellFormed (c : Call) : Prop :=
  ∀ length blk, c.resolved = some length → c.block = some blk →
    blk.length = length ∧ c.retrieved.length ≤ length

/-- Lines 171-235, `GetHomeFile`: `none` is the `nullptr` returned after
`napi_throw_error`, `some s` the runtime string returned. -/
def GetHomeFile (c : Call) : Except Fault (Option (List Byte)) :=
  if c.argc < 1 then
    .ok none
  else
    let result : List Byte := []
    if !c.opened then
      .ok (some result)
    else
      match c.resolved with
      | none => .ok (some result)
      | some length =>
        match c.block with
        | none => .ok (some result)
        | some blk =>
          let buf := c.retrieved ++ blk.drop c.retrieved.length
          if c.retrieved.length > 0 then
            match parseSystem buf length length with
            | .error e => .error e
            | .ok s => .ok (some (s.result.getD result))
          else
            .ok (some result)

deriving instance DecidableEq for Except

/-! ## Notions used to state the properties -/

/-- The 2-byte little-endian unsigned integer with low byte `b0` and high byte `b1`. -/
def le16 (b0 b1 : Byte) : Nat := b0.val + 256 * b1.val

/-- The low byte of a 16-bit value. -/
def lowByte (v : Nat) : Byte := Fin.ofNat (v % 256)

/-- The high byte of a 16-bit value. -/
def highByte (v : Nat) : Byte := Fin.ofNat (v / 256)

/-- The bytes of a complete record: 2 bytes little-endian code, 2 bytes little-endian
length, then the data. -/
def encodeRecord (code : Nat) (data : List Byte) : List Byte :=
  lowByte code :: highByte code :: lowByte data.length :: highByte data.length :: data

/-- A record as the stream holds it: a 16-bit code and data whose length fits the
16-bit length field. -/
structure Record where
  code : Nat
  data : List Byte
deriving DecidableEq, Repr

/-- Both fields of the record header can hold their value. -/
def Record.Valid (r : Record) : Prop := r.code < 65536 ∧ r.data.length < 65536

/-- The bytes of a record. -/
def Record.bytes (r : Record) : List Byte := encodeRecord r.code r.data

/-- The bytes of the records `rs`, packed one after the other. -/
def packRecords (rs : List Record) : List Byte := (rs.map Record.bytes).flatten

/-- The buffer reaches a default-topic record: after the 4-byte header come only
complete records with a code other than 2, then a complete record with code 2
(anything may follow it). -/
def ReachesDefaultTopic (buf : List Byte) : Prop :=
  ∃ (h : List Byte) (rs : List Record) (data rest : List Byte),
    h.length = 4 ∧ (∀ r ∈ rs, r.Valid ∧ r.code ≠ 2) ∧ data.length < 65536 ∧
      buf = h ++ packRecords rs ++ encodeRecord 2 data ++ rest

/-- A call whose `#SYSTEM` unit declares 12 bytes of which `chm_retrieve_object`
delivers 4 (the header); the fresh block holds zero bytes. -/
def shortReadZeros : Call :=
  { argc := 1, opened := true, resolved := some 12,
    block := some [0, 0, 0, 0, 0, 0, 0, 0, 0, 0, 0, 0],
    retrieved := [0, 0, 0, 0] }

/-- The same call, the same 4 retrieved bytes; the fresh block happens to hold, from
index 4 on, the bytes of a code-2 record with the data `a NUL`. -/
def shortReadStale : Call :=
  { argc := 1, opened := true, resolved := some 12,
    block := some [0, 0, 0, 0, 2, 0, 2, 0, 97, 0, 0, 0],
    retrieved := [0, 0, 0, 0] }

/-! ## Proof devices -/

/-- The scan as a function of the bytes from the cursor on: a proof device, the
properties below are stated on `whileLoop` and `parseDefaultTopic`. -/
def scanFrom : List Byte → Option (List Byte)
  | c0 :: c1 :: l0 :: l1 :: tl =>
    if tl.length < le16 l0 l1 then none
    else if le16 c0 c1 = 2 then
      some (napi_create_string_utf8_auto (ensureSlash (tl.take (le16 l0 l1 - 1))))
    else scanFrom (tl.drop (le16 l0 l1))
  | _ => none
termination_by s => s.length
decreasing_by simp; omega

/-- The C++ string `topic` of the scan of the bytes from the cursor on: a proof
device like `scanFrom`. -/
def topicFrom : List Byte → Option (List Byte)
  | c0 :: c1 :: l0 :: l1 :: tl =>
    if tl.length < le16 l0 l1 then none
    else if le16 c0 c1 = 2 then some (ensureSlash (tl.take (le16 l0 l1 - 1)))
    else topicFrom (tl.drop (le16 l0 l1))
  | _ => none
termination_by s => s.length
decreasing_by simp; omega

/-- The number of executions of the loop body of the scan of the bytes from the
cursor on: a proof device like `scanFrom`. -/
def itersFrom : List Byte → Nat
  | c0 :: c1 :: l0 :: l1 :: tl =>
    if tl.length < le16 l0 l1 then 1
    else if le16 c0 c1 = 2 then 1
    else 1 + itersFrom (tl.drop (le16 l0 l1))
  | _ => 0
termination_by s => s.length
decreasing_by simp; omega

/-! ## Helper lemmas -/

theorem u16_eq_le16 (b0 b1 : Byte) :
    (b0.val ||| (b1.val <<< 8)) % 2 ^ 16 = le16 b0 b1 := by
  have h0 := b0.isLt
  have h1 := b1.isLt
  have e : 2 ^ 8 * b1.val + b0.val = 2 ^ 8 * b1.val ||| b0.val :=
    Nat.mul_add_lt_is_or (by omega) b1.val
  rw [Nat.lor_comm, Nat.shiftLeft_eq, Nat.mul_comm, ← e]
  unfold le16
  omega

theorem le16_lt (b0 b1 : Byte) : le16 b0 b1 < 65536 := by
  unfold le16; omega

theorem le16_low_high (v : Nat) (h : v < 65536) : le16 (lowByte v) (highByte v) = v := by
  unfold le16 lowByte highByte
  simp [Fin.ofNat]
  omega

theorem readByte_of_drop {buf : List Byte} {o : Nat} {x : Byte} {tl : List Byte}
    (h : buf.drop o = x :: tl) : readByte buf o = .ok x ∧ buf.drop (o + 1) = tl := by
  induction buf generalizing o with
  | nil => simp at h
  | cons a l ih =>
    cases o with
    | zero =>
      simp at h
      simp [readByte, h.1, h.2]
    | succ o =>
      simp at h
      have := ih h
      simpa [readByte] using this

theorem readBytes_of_le (buf : List Byte) (count p : Nat) (h : p + count ≤ buf.length) :
    readBytes buf p count = .ok ((buf.drop p).take count) := by
  induction count generalizing p with
  | zero => simp [readBytes, pure, Except.pure]
  | succ k ih =>
    have hp : p < buf.length := by omega
    obtain ⟨x, tl, hx⟩ : ∃ x tl, buf.drop p = x :: tl := by
      cases hd : buf.drop p with
      | nil => simp at hd; omega
      | cons x tl => exact ⟨x, tl, rfl⟩
    obtain ⟨h1, h2⟩ := readByte_of_drop hx
    simp only [readBytes, h1, ih (p + 1) (by omega), h2, hx, bind, Except.bind, pure,
      Except.pure, List.take_succ_cons]

theorem scanFrom_cons4 (c0 c1 l0 l1 : Byte) (tl : List Byte) :
    scanFrom (c0 :: c1 :: l0 :: l1 :: tl) =
      if tl.length < le16 l0 l1 then none
      else if le16 c0 c1 = 2 then
        some (napi_create_string_utf8_auto (ensureSlash (tl.take (le16 l0 l1 - 1))))
      else scanFrom (tl.drop (le16 l0 l1)) := by
  rw [scanFrom]

theorem scanFrom_short (s : List Byte) (h : s.length < 4) : scanFrom s = none := by
  match s, h with
  | [], _ => simp [scanFrom]
  | [_], _ => simp [scanFrom]
  | [_, _], _ => simp [scanFrom]
  | [_, _, _], _ => simp [scanFrom]
  | _ :: _ :: _ :: _ :: _, h => simp at h; omega

theorem drop_eq_cons4 (buf : List Byte) (o : Nat) (h : o + 4 ≤ buf.length) :
    ∃ c0 c1 l0 l1 tl, buf.drop o = c0 :: c1 :: l0 :: l1 :: tl := by
  have hl : (buf.drop o).length = buf.length - o := List.length_drop o buf
  match hd : buf.drop o, hl with
  | [], hl => simp at hl; omega
  | [_], hl => simp at hl; omega
  | [_, _], hl => simp at hl; omega
  | [_, _, _], hl => simp at hl; omega
  | c0 :: c1 :: l0 :: l1 :: tl, _ => exact ⟨c0, c1, l0, l1, tl, rfl⟩

theorem loopBody_of_drop {buf : List Byte} {o : Nat} {c0 c1 l0 l1 : Byte} {tl : List Byte}
    (h : buf.drop o = c0 :: c1 :: l0 :: l1 :: tl) (length : Nat)
    (hlen : length ≤ buf.length) :
    loopBody buf length o = .ok
      (if o + 4 + le16 l0 l1 > length then Step.exit none none
       else if le16 c0 c1 = 2 then
         Step.exit (some (napi_create_string_utf8_auto
           (ensureSlash (tl.take (le16 l0 l1 - 1)))))
           (some (ensureSlash (tl.take (le16 l0 l1 - 1))))
       else Step.next (o + 4 + le16 l0 l1)) := by
  obtain ⟨r0, h0⟩ := readByte_of_drop h
  obtain ⟨r1, h1⟩ := readByte_of_drop h0
  obtain ⟨r2, h2⟩ := readByte_of_drop h1
  obtain ⟨r3, h3⟩ := readByte_of_drop h2
  have e16a : read_uint16 buf o = .ok (le16 c0 c1) := by
    simp only [read_uint16, r0, r1, bind, Except.bind, pure, Except.pure, u16_eq_le16]
  have e16b : read_uint16 buf (o + 2) = .ok (le16 l0 l1) := by
    simp only [read_uint16, r2, r3, bind, Except.bind, pure, Except.pure, u16_eq_le16]
  simp only [loopBody, e16a, e16b, bind, Except.bind, pure, Except.pure]
  by_cases hgt : o + 4 + le16 l0 l1 > length
  · simp [hgt]
  · simp only [hgt, if_false]
    by_cases hc : le16 c0 c1 = 2
    · simp only [hc, if_true]
      have hcnt : (if le16 l0 l1 > 0 then le16 l0 l1 - 1 else 0) = le16 l0 l1 - 1 := by
        split <;> omega
      rw [hcnt, readBytes_of_le buf _ _ (by omega), h3]
    · simp [hc]

theorem topicFrom_cons4 (c0 c1 l0 l1 : Byte) (tl : List Byte) :
    topicFrom (c0 :: c1 :: l0 :: l1 :: tl) =
      if tl.length < le16 l0 l1 then none
      else if le16 c0 c1 = 2 then some (ensureSlash (tl.take (le16 l0 l1 - 1)))
      else topicFrom (tl.drop (le16 l0 l1)) := by
  rw [topicFrom]

theorem topicFrom_short (s : List Byte) (h : s.length < 4) : topicFrom s = none := by
  match s, h with
  | [], _ => simp [topicFrom]
  | [_], _ => simp [topicFrom]
  | [_, _], _ => simp [topicFrom]
  | [_, _, _], _ => simp [topicFrom]
  | _ :: _ :: _ :: _ :: _, h => simp at h; omega

theorem itersFrom_cons4 (c0 c1 l0 l1 : Byte) (tl : List Byte) :
    itersFrom (c0 :: c1 :: l0 :: l1 :: tl) =
      if tl.length < le16 l0 l1 then 1
      else if le16 c0 c1 = 2 then 1
      else 1 + itersFrom (tl.drop (le16 l0 l1)) := by
  rw [itersFrom]

theorem itersFrom_short (s : List Byte) (h : s.length < 4) : itersFrom s = 0 := by
  match s, h with
  | [], _ => simp [itersFrom]
  | [_], _ => simp [itersFrom]
  | [_, _], _ => simp [itersFrom]
  | [_, _, _], _ => simp [itersFrom]
  | _ :: _ :: _ :: _ :: _, h => simp at h; omega

theorem itersFrom_le : ∀ (n : Nat) (s : List Byte), s.length ≤ n → 4 * itersFrom s ≤ s.length := by
  intro n
  induction n with
  | zero =>
    intro s hs
    rw [itersFrom_short s (by omega)]
    omega
  | succ n ih =>
    intro s hs
    match s, hs with
    | [], _ => simp [itersFrom]
    | [_], _ => simp [itersFrom]
    | [_, _], _ => simp [itersFrom]
    | [_, _, _], _ => simp [itersFrom]
    | c0 :: c1 :: l0 :: l1 :: tl, hs =>
      rw [itersFrom_cons4]
      simp only [List.length_cons] at hs ⊢
      split
      · omega
      · split
        · omega
        · have := ih (tl.drop (le16 l0 l1)) (by rw [List.length_drop]; omega)
          rw [List.length_drop] at this
          omega

theorem whileLoop_eq_scanFrom (buf : List Byte) :
    ∀ fuel o it, o ≤ buf.length → (buf.length - o) / 4 ≤ fuel →
      whileLoop buf buf.length fuel o it
        = .ok ⟨scanFrom (buf.drop o), it + itersFrom (buf.drop o), topicFrom (buf.drop o)⟩ := by
  intro fuel
  induction fuel with
  | zero =>
    intro o it ho hf
    have hc : ¬ (o + 4 ≤ buf.length) := by omega
    rw [scanFrom_short _ (by rw [List.length_drop]; omega),
      itersFrom_short _ (by rw [List.length_drop]; omega),
      topicFrom_short _ (by rw [List.length_drop]; omega)]
    simp [whileLoop, hc]
  | succ f ih =>
    intro o it ho hf
    by_cases hc : o + 4 ≤ buf.length
    · obtain ⟨c0, c1, l0, l1, tl, hd⟩ := drop_eq_cons4 buf o hc
      have hb := loopBody_of_drop hd buf.length (le_refl _)
      have hl : buf.length = o + 4 + tl.length := by
        have := congrArg List.length hd
        simp at this
        omega
      rw [hd, scanFrom_cons4, itersFrom_cons4, topicFrom_cons4]
      by_cases hgt : tl.length < le16 l0 l1
      · have hgt2 : o + 4 + le16 l0 l1 > buf.length := by omega
        simp [whileLoop, hc, hb, hgt, hgt2]
      · have hgt2 : ¬ (o + 4 + le16 l0 l1 > buf.length) := by omega
        by_cases h2 : le16 c0 c1 = 2
        · simp [whileLoop, hc, hb, hgt, hgt2, h2]
        · have hk := ih (o + 4 + le16 l0 l1) (it + 1) (by omega) (by omega)
          have hdrop : buf.drop (o + 4 + le16 l0 l1) = tl.drop (le16 l0 l1) := by
            rw [show o + 4 + le16 l0 l1 = o + (4 + le16 l0 l1) by omega, ← List.drop_drop,
              ← List.drop_drop, hd]
            simp
          simp only [whileLoop, hc, hb, hgt, hgt2, h2, if_true, if_false]
          rw [hk, hdrop]
          simp [Nat.add_assoc]
    · rw [scanFrom_short _ (by rw [List.length_drop]; omega),
        itersFrom_short _ (by rw [List.length_drop]; omega),
        topicFrom_short _ (by rw [List.length_drop]; omega)]
      simp [whileLoop, hc]

theorem parseSystem_eq (buf : List Byte) (fuel : Nat) (hf : buf.length / 4 ≤ fuel) :
    parseSystem buf buf.length fuel
      = .ok ⟨scanFrom (buf.drop 4), itersFrom (buf.drop 4), topicFrom (buf.drop 4)⟩ := by
  unfold parseSystem
  by_cases h4 : buf.length ≥ 4
  · rw [if_pos h4, whileLoop_eq_scanFrom buf fuel 4 0 h4 (by omega)]
    simp
  · rw [if_neg h4, scanFrom_short _ (by rw [List.length_drop]; omega),
      itersFrom_short _ (by rw [List.length_drop]; omega),
      topicFrom_short _ (by rw [List.length_drop]; omega)]

theorem parseDefaultTopic_eq (buf : List Byte) :
    parseDefaultTopic buf = .ok (scanFrom (buf.drop 4)) := by
  unfold parseDefaultTopic
  rw [parseSystem_eq buf buf.length (Nat.div_le_self _ _)]
  rfl

theorem lowByte_le16 (b0 b1 : Byte) : lowByte (le16 b0 b1) = b0 := by
  apply Fin.ext
  have := b0.isLt
  simp [lowByte, le16, Fin.ofNat]

theorem highByte_le16 (b0 b1 : Byte) : highByte (le16 b0 b1) = b1 := by
  apply Fin.ext
  have := b0.isLt
  have := b1.isLt
  simp [highByte, le16, Fin.ofNat]
  omega

theorem scanFrom_record (code : Nat) (data s : List Byte) (hc : code < 65536)
    (hd : data.length < 65536) :
    scanFrom (encodeRecord code data ++ s) =
      if code = 2 then
        some (napi_create_string_utf8_auto (ensureSlash (data.take (data.length - 1))))
      else scanFrom s := by
  simp only [encodeRecord, List.cons_append, scanFrom_cons4, le16_low_high _ hc,
    le16_low_high _ hd]
  rw [if_neg (by simp)]
  by_cases h2 : code = 2
  · simp only [h2, if_true]
    rw [List.take_append_of_le_length (by omega)]
  · simp [h2]

theorem scanFrom_packRecords (rs : List Record) (s : List Byte)
    (h : ∀ r ∈ rs, r.Valid ∧ r.code ≠ 2) :
    scanFrom (packRecords rs ++ s) = scanFrom s := by
  induction rs with
  | nil => simp [packRecords]
  | cons r rs ih =>
    have hr := h r (by simp)
    have e : packRecords (r :: rs) ++ s = encodeRecord r.code r.data ++ (packRecords rs ++ s) := by
      simp [packRecords, Record.bytes]
    rw [e, scanFrom_record _ _ _ hr.1.1 hr.1.2, if_neg hr.2]
    exact ih (fun r' hr' => h r' (by simp [hr']))

theorem scanFrom_topic (l0 l1 : Byte) (tl : List Byte) (c0 c1 : Byte) (hc : le16 c0 c1 = 2)
    (hl : le16 l0 l1 ≤ tl.length) :
    scanFrom (c0 :: c1 :: l0 :: l1 :: tl) =
      some (napi_create_string_utf8_auto (ensureSlash (tl.take (le16 l0 l1 - 1)))) := by
  rw [scanFrom_cons4, if_neg (by omega), if_pos hc]

theorem scanFrom_append : ∀ (n : Nat) (s e : List Byte) (t : List Byte), s.length ≤ n →
    scanFrom s = some t → scanFrom (s ++ e) = some t := by
  intro n
  induction n with
  | zero =>
    intro s e t hs h
    rw [scanFrom_short s (by omega)] at h
    simp at h
  | succ n ih =>
    intro s e t hs h
    match s, hs, h with
    | [], _, h => simp [scanFrom] at h
    | [_], _, h => simp [scanFrom] at h
    | [_, _], _, h => simp [scanFrom] at h
    | [_, _, _], _, h => simp [scanFrom] at h
    | c0 :: c1 :: l0 :: l1 :: tl, hs, h =>
      rw [scanFrom_cons4] at h
      simp only [List.cons_append, scanFrom_cons4, List.length_append]
      simp only [List.length_cons] at hs
      by_cases hgt : tl.length < le16 l0 l1
      · simp [hgt] at h
      · rw [if_neg hgt] at h
        rw [if_neg (by omega)]
        by_cases h2 : le16 c0 c1 = 2
        · rw [if_pos h2] at h
          rw [if_pos h2, List.take_append_of_le_length (by omega)]
          exact h
        · rw [if_neg h2] at h
          rw [if_neg h2, List.drop_append_of_le_length (by omega)]
          exact ih _ e t (by rw [List.length_drop]; omega) h

theorem scanFrom_some_decompose : ∀ (n : Nat) (s : List Byte) (t : List Byte), s.length ≤ n →
    scanFrom s = some t →
      ∃ (rs : List Record) (data rest : List Byte),
        (∀ r ∈ rs, r.Valid ∧ r.code ≠ 2) ∧ data.length < 65536 ∧
          s = packRecords rs ++ encodeRecord 2 data ++ rest := by
  intro n
  induction n with
  | zero =>
    intro s t hs h
    rw [scanFrom_short s (by omega)] at h
    simp at h
  | succ n ih =>
    intro s t hs h
    match s, hs, h with
    | [], _, h => simp [scanFrom] at h
    | [_], _, h => simp [scanFrom] at h
    | [_, _], _, h => simp [scanFrom] at h
    | [_, _, _], _, h => simp [scanFrom] at h
    | c0 :: c1 :: l0 :: l1 :: tl, hs, h =>
      rw [scanFrom_cons4] at h
      simp only [List.length_cons] at hs
      by_cases hgt : tl.length < le16 l0 l1
      · simp [hgt] at h
      · rw [if_neg hgt] at h
        have hlen : (tl.take (le16 l0 l1)).length = le16 l0 l1 := by
          rw [List.length_take]; omega
        have henc : ∀ code, code = le16 c0 c1 →
            c0 :: c1 :: l0 :: l1 :: tl
              = encodeRecord code (tl.take (le16 l0 l1)) ++ tl.drop (le16 l0 l1) := by
          intro code hcode
          simp only [encodeRecord, hlen, hcode, lowByte_le16, highByte_le16, List.cons_append,
            List.take_append_drop]
        by_cases h2 : le16 c0 c1 = 2
        · refine ⟨[], tl.take (le16 l0 l1), tl.drop (le16 l0 l1), by simp, ?_, ?_⟩
          · rw [hlen]; exact le16_lt l0 l1
          · rw [henc 2 h2.symm]; simp [packRecords]
        · rw [if_neg h2] at h
          obtain ⟨rs, data, rest, hrs, hdata, hs'⟩ :=
            ih _ t (by rw [List.length_drop]; omega) h
          refine ⟨⟨le16 c0 c1, tl.take (le16 l0 l1)⟩ :: rs, data, rest, ?_, hdata, ?_⟩
          · intro r hr
            rcases List.mem_cons.mp hr with hr | hr
            · subst hr
              exact ⟨⟨le16_lt c0 c1, by rw [hlen]; exact le16_lt l0 l1⟩, h2⟩
            · exact hrs r hr
          · rw [henc _ rfl, hs']
            simp [packRecords, Record.bytes]

theorem topic_empty_or_slash (text : List Byte) :
    napi_create_string_utf8_auto (ensureSlash text) = [] ∨
      (napi_create_string_utf8_auto (ensureSlash text)).head? = some slash := by
  cases text with
  | nil => left; rfl
  | cons c tl =>
    right
    by_cases hc : c = 47
    · subst hc
      simp [ensureSlash, napi_create_string_utf8_auto, List.takeWhile, slash]
    · simp [ensureSlash, hc, napi_create_string_utf8_auto, List.takeWhile, slash]

theorem scanFrom_empty_or_slash : ∀ (n : Nat) (s : List Byte) (t : List Byte), s.length ≤ n →
    scanFrom s = some t → t = [] ∨ t.head? = some slash := by
  intro n
  induction n with
  | zero =>
    intro s t hs h
    rw [scanFrom_short s (by omega)] at h
    simp at h
  | succ n ih =>
    intro s t hs h
    match s, hs, h with
    | [], _, h => simp [scanFrom] at h
    | [_], _, h => simp [scanFrom] at h
    | [_, _], _, h => simp [scanFrom] at h
    | [_, _, _], _, h => simp [scanFrom] at h
    | c0 :: c1 :: l0 :: l1 :: tl, hs, h =>
      rw [scanFrom_cons4] at h
      simp only [List.length_cons] at hs
      by_cases hgt : tl.length < le16 l0 l1
      · simp [hgt] at h
      · rw [if_neg hgt] at h
        by_cases h2 : le16 c0 c1 = 2
        · rw [if_pos h2] at h
          cases h
          exact topic_empty_or_slash _
        · rw [if_neg h2] at h
          exact ih _ t (by rw [List.length_drop]; omega) h

theorem whileLoop_ne_outOfBounds (buf : List Byte) :
    ∀ fuel o it, whileLoop buf buf.length fuel o it ≠ .error .outOfBounds := by
  intro fuel
  induction fuel with
  | zero =>
    intro o it
    unfold whileLoop
    split <;> simp
  | succ f ih =>
    intro o it
    by_cases hc : o + 4 ≤ buf.length
    · obtain ⟨c0, c1, l0, l1, tl, hd⟩ := drop_eq_cons4 buf o hc
      have hb := loopBody_of_drop hd buf.length (le_refl _)
      by_cases hgt : o + 4 + le16 l0 l1 > buf.length
      · simp [whileLoop, hc, hb, hgt]
      · by_cases h2 : le16 c0 c1 = 2
        · simp [whileLoop, hc, hb, hgt, h2]
        · simp only [whileLoop, hc, hb, hgt, h2, if_true, if_false]
          exact ih _ _
    · simp [whileLoop, hc]

theorem loopBody_next_advances (buf : List Byte) (length o o' : Nat)
    (h : loopBody buf length o = .ok (.next o')) : o + 4 ≤ o' := by
  unfold loopBody at h
  cases hc : read_uint16 buf o with
  | error e => simp [hc, bind, Except.bind] at h
  | ok code =>
    cases hl : read_uint16 buf (o + 2) with
    | error e => simp [hc, hl, bind, Except.bind] at h
    | ok len =>
      simp only [hc, hl, bind, Except.bind, pure, Except.pure] at h
      split at h
      · simp at h
      · split at h
        · cases hr : readBytes buf (o + 4) (if len > 0 then len - 1 else 0) with
          | error e => simp [hr] at h
          | ok t => simp [hr] at h
        · simp at h
          omega

/-! ## The claims -/

/-- C2: complete records whose code is not 2, standing between the 4-byte header and
the rest of the buffer, are skipped by their declared length: the parse is that of
the header followed by the rest. -/
theorem parseDefaultTopic_skips_records (h : List Byte) (rs : List Record) (rest : List Byte)
    (hh : h.length = 4) (hrs : ∀ r ∈ rs, r.Valid ∧ r.code ≠ 2) :
    parseDefaultTopic (h ++ packRecords rs ++ rest) = parseDefaultTopic (h ++ rest) := by
  rw [parseDefaultTopic_eq, parseDefaultTopic_eq, List.append_assoc, List.drop_left' hh,
    List.drop_left' hh, scanFrom_packRecords rs rest hrs]

/-- C2 (witness): a code-5 record with three data bytes followed by the code-2 record
of declared length 7 with data `/a.htm NUL` yields the topic `/a.htm` of the code-2
record. -/
theorem parseDefaultTopic_skips_records_witness :
    parseDefaultTopic ([0, 0, 0, 0] ++ packRecords [⟨5, [1, 2, 3]⟩]
        ++ [2, 0, 7, 0, 47, 97, 46, 104, 116, 109, 0])
      = .ok (some [47, 97, 46, 104, 116, 109]) :=
  (parseDefaultTopic_skips_records [0, 0, 0, 0] [⟨5, [1, 2, 3]⟩]
    [2, 0, 7, 0, 47, 97, 46, 104, 116, 109, 0] rfl
    (by intro r hr; rw [List.mem_singleton.mp hr]; exact ⟨⟨by decide, by decide⟩, by decide⟩)).trans
    (by decide)

/-- C3: the parse yields a topic exactly when the buffer reaches a default-topic
record (4-byte header, complete records with code other than 2, then a complete
record with code 2), and yields `none` exactly when it does not. -/
theorem parseDefaultTopic_some_iff (buf : List Byte) :
    ((∃ t, parseDefaultTopic buf = .ok (some t)) ↔ ReachesDefaultTopic buf) ∧
      (parseDefaultTopic buf = .ok none ↔ ¬ ReachesDefaultTopic buf) := by
  have key : (∃ t, parseDefaultTopic buf = .ok (some t)) ↔ ReachesDefaultTopic buf := by
    constructor
    · rintro ⟨t, ht⟩
      rw [parseDefaultTopic_eq] at ht
      have hs : scanFrom (buf.drop 4) = some t := by
        injection ht
      have h4 : 4 ≤ buf.length := by
        by_contra hlt
        rw [scanFrom_short _ (by rw [List.length_drop]; omega)] at hs
        simp at hs
      obtain ⟨rs, data, rest, hrs, hdata, hsplit⟩ :=
        scanFrom_some_decompose _ _ t (le_refl _) hs
      refine ⟨buf.take 4, rs, data, rest, by rw [List.length_take]; omega, hrs, hdata, ?_⟩
      rw [List.append_assoc, List.append_assoc, ← List.append_assoc (packRecords rs), ← hsplit,
        List.take_append_drop]
    · rintro ⟨h, rs, data, rest, hh, hrs, hdata, rfl⟩
      refine ⟨napi_create_string_utf8_auto (ensureSlash (data.take (data.length - 1))), ?_⟩
      rw [parseDefaultTopic_eq, List.append_assoc, List.append_assoc, List.drop_left' hh,
        scanFrom_packRecords rs _ hrs, scanFrom_record 2 data rest (by decide) hdata, if_pos rfl]
  refine ⟨key, ?_⟩
  rw [← key, parseDefaultTopic_eq]
  cases scanFrom (buf.drop 4) with
  | none => simp
  | some t => simp

/-- C4: when the parse of `p` yields a topic, the parse of `p` followed by any bytes
`t` yields the same topic. -/
theorem parseDefaultTopic_append (p t topic : List Byte)
    (h : parseDefaultTopic p = .ok (some topic)) :
    parseDefaultTopic (p ++ t) = .ok (some topic) := by
  rw [parseDefaultTopic_eq] at h ⊢
  have hs : scanFrom (p.drop 4) = some topic := by
    injection h
  have h4 : 4 ≤ p.length := by
    by_contra hlt
    rw [scanFrom_short _ (by rw [List.length_drop]; omega)] at hs
    simp at hs
  rw [List.drop_append_of_le_length h4, scanFrom_append _ _ t topic (le_refl _) hs]

/-- C4 (witness): after the code-2 record with topic `ab`, a second code-2 record with
topic `c` and three stray bytes change nothing: the topic stays `/ab`. -/
theorem parseDefaultTopic_append_witness :
    parseDefaultTopic ([0, 0, 0, 0, 2, 0, 3, 0, 97, 98, 0] ++ [2, 0, 2, 0, 99, 0, 9, 9, 9])
      = .ok (some [47, 97, 98]) :=
  parseDefaultTopic_append [0, 0, 0, 0, 2, 0, 3, 0, 97, 98, 0] [2, 0, 2, 0, 99, 0, 9, 9, 9]
    [47, 97, 98] (by decide)

/-- C5: on a buffer of `buf.length` bytes the bounds-checked scan never reads out of
range, whatever fuel it is given, and with the fuel `buf.length` it ends without any
fault. -/
theorem scan_reads_in_bounds (buf : List Byte) :
    (∀ fuel, parseSystem buf buf.length fuel ≠ .error .outOfBounds) ∧
      (∃ s, parseSystem buf buf.length buf.length = .ok s) ∧
      ∃ r, parseDefaultTopic buf = .ok r := by
  refine ⟨fun fuel => ?_, ⟨_, parseSystem_eq buf buf.length (Nat.div_le_self _ _)⟩,
    ⟨_, parseDefaultTopic_eq buf⟩⟩
  unfold parseSystem
  split
  · exact whileLoop_ne_outOfBounds buf fuel 4 0
  · simp

/-- C6 (as stated, refuted): for the 15-byte buffer `00 00 00 00 02 00 06 00 /a.htm NUL`
the parse does not return `/a.htm`. -/
theorem a_htm_len6_is_not_a_htm :
    parseDefaultTopic [0, 0, 0, 0, 2, 0, 6, 0, 47, 97, 46, 104, 116, 109, 0]
      ≠ .ok (some [47, 97, 46, 104, 116, 109]) := by
  decide

/-- C6 (amended): for the 15-byte buffer `00 00 00 00 02 00 06 00 /a.htm NUL` the parse
returns `/a.ht`, the first `len - 1 = 5` bytes of the data. -/
theorem a_htm_len6_is_a_ht :
    parseDefaultTopic [0, 0, 0, 0, 2, 0, 6, 0, 47, 97, 46, 104, 116, 109, 0]
      = .ok (some [47, 97, 46, 104, 116]) := by
  decide

/-- C7 (as stated, refuted): for the header `00 00 00 00`, the record header
`02 00 05 00` and the data `b.htm NUL` the parse does not return `/b.h`. -/
theorem b_htm_len5_is_not_b_h :
    parseDefaultTopic [0, 0, 0, 0, 2, 0, 5, 0, 98, 46, 104, 116, 109, 0]
      ≠ .ok (some [47, 98, 46, 104]) := by
  decide

/-- C7 (amended): for any 4-byte header, the record header `02 00 05 00` and the data
`b.htm NUL` the parse returns `/b.ht`: the `len - 1 = 4` extracted bytes `b.ht` with
`/` prepended. -/
theorem b_htm_len5_is_b_ht (h0 h1 h2 h3 : Byte) :
    parseDefaultTopic [h0, h1, h2, h3, 2, 0, 5, 0, 98, 46, 104, 116, 109, 0]
      = .ok (some [47, 98, 46, 104, 116]) := by
  rw [parseDefaultTopic_eq]
  simp only [List.drop_succ_cons, List.drop_zero]
  rw [scanFrom_topic _ _ _ _ _ (by decide) (by decide)]
  decide

/-- C8: the scan of a buffer of `n` bytes ends with the same result for every fuel of
at least `n / 4`; the loop body runs at most `n / 4` times, and not at all when
`n < 8`; an execution of the body that does not leave the loop moves the cursor
forward by at least 4. -/
theorem scan_terminates (buf : List Byte) :
    ∃ s : Scan,
      (∀ fuel, buf.length / 4 ≤ fuel → parseSystem buf buf.length fuel = .ok s) ∧
      s.iterations ≤ buf.length / 4 ∧
      (buf.length < 8 → s.iterations = 0) ∧
      (∀ length o o', loopBody buf length o = .ok (.next o') → o + 4 ≤ o') := by
  have hle := itersFrom_le _ (buf.drop 4) (le_refl _)
  rw [List.length_drop] at hle
  refine ⟨⟨scanFrom (buf.drop 4), itersFrom (buf.drop 4), topicFrom (buf.drop 4)⟩,
    fun fuel hf => parseSystem_eq buf fuel hf, ?_, ?_,
    fun length o o' h => loopBody_next_advances buf length o o' h⟩
  · show itersFrom (buf.drop 4) ≤ buf.length / 4
    omega
  · intro h8
    show itersFrom (buf.drop 4) = 0
    omega

theorem parseSystem_result_empty_or_slash (buf : List Byte) :
    ∃ s, parseSystem buf buf.length buf.length = .ok s ∧
      ∀ t, s.result = some t → t = [] ∨ t.head? = some slash :=
  ⟨_, parseSystem_eq buf buf.length (Nat.div_le_self _ _),
    fun t ht => scanFrom_empty_or_slash _ _ t (le_refl _) ht⟩

/-- C9: whatever the environment does within the contracts of `malloc` and
`chm_retrieve_object` (open, resolve, allocation or retrieval may fail, the buffer
may hold any bytes), `GetHomeFile` returns, and a string it returns is empty or
starts with `/`. -/
theorem GetHomeFile_empty_or_slash (c : Call) (hc : c.WellFormed) :
    ∃ r, GetHomeFile c = .ok r ∧ ∀ s, r = some s → s = [] ∨ s.head? = some slash := by
  unfold GetHomeFile
  by_cases ha : c.argc < 1
  · exact ⟨none, by simp [ha], by simp⟩
  · rw [if_neg ha]
    cases ho : c.opened with
    | false => exact ⟨some [], by simp, by simp⟩
    | true =>
      cases hr : c.resolved with
      | none => exact ⟨some [], by simp, by simp⟩
      | some length =>
        cases hb : c.block with
        | none => exact ⟨some [], by simp, by simp⟩
        | some blk =>
          obtain ⟨hblk, hret⟩ := hc length blk hr hb
          by_cases hn : c.retrieved.length > 0
          · have hlen : (c.retrieved ++ blk.drop c.retrieved.length).length = length := by
              rw [List.length_append, List.length_drop]
              omega
            obtain ⟨s, hs, hslash⟩ :=
              parseSystem_result_empty_or_slash (c.retrieved ++ blk.drop c.retrieved.length)
            rw [hlen] at hs
            refine ⟨some (s.result.getD []), by simp [hn, hs], ?_⟩
            intro t ht
            cases hres : s.result with
            | none =>
              left
              simpa [hres] using ht.symm
            | some t' =>
              have : t = t' := by simpa [hres] using ht.symm
              subst this
              exact hslash t hres
          · exact ⟨some [], by simp [hn], by simp⟩

/-- C9 (witness): the unit is the 15-byte stream `00 00 00 00 02 00 07 00 a.htm NUL NUL`,
retrieved in full into a block of 15 bytes: the string returned is `/a.htm`. -/
theorem GetHomeFile_empty_or_slash_witness :
    ∃ r, GetHomeFile ⟨1, true, some 15, some (List.replicate 15 255),
        [0, 0, 0, 0, 2, 0, 7, 0, 97, 46, 104, 116, 109, 0, 0]⟩ = .ok r ∧
      r = some [47, 97, 46, 104, 116, 109] ∧
      ∀ s, r = some s → s = [] ∨ s.head? = some slash := by
  obtain ⟨r, hr, hs⟩ := GetHomeFile_empty_or_slash
    ⟨1, true, some 15, some (List.replicate 15 255),
      [0, 0, 0, 0, 2, 0, 7, 0, 97, 46, 104, 116, 109, 0, 0]⟩
    (by
      intro length blk h1 h2
      cases h1
      cases h2
      decide)
  refine ⟨r, hr, ?_, hs⟩
  have e : GetHomeFile ⟨1, true, some 15, some (List.replicate 15 255),
      [0, 0, 0, 0, 2, 0, 7, 0, 97, 46, 104, 116, 109, 0, 0]⟩
      = .ok (some [47, 97, 46, 104, 116, 109]) := by decide
  rw [e] at hr
  injection hr with hr
  exact hr.symm

/-- C10 (the code at the failing input): two calls with the same declared length 12
and the same 4 retrieved bytes, both within the contracts of `malloc` and
`chm_retrieve_object`, return different strings: the scan runs over all 12 bytes of
the block and reads the 8 bytes that were never retrieved. -/
theorem short_read_result_depends_on_unretrieved_bytes :
    shortReadZeros.WellFormed ∧ shortReadStale.WellFormed ∧
      shortReadZeros.resolved = some 12 ∧ shortReadStale.resolved = some 12 ∧
      shortReadZeros.retrieved = shortReadStale.retrieved ∧
      shortReadZeros.retrieved.length = 4 ∧
      GetHomeFile shortReadZeros = .ok (some []) ∧
      GetHomeFile shortReadStale = .ok (some [47, 97]) := by
  refine ⟨?_, ?_, rfl, rfl, rfl, rfl, by decide, by decide⟩
  · intro length blk h1 h2
    cases h1
    cases h2
    decide
  · intro length blk h1 h2
    cases h1
    cases h2
    decide

end NapiInit
